import Mathlib

/-!
Verification of the Golden-Lines reading application.

Shallow embedding of the program's core algorithms:
* `resolvePath` — relative-reference resolution inside the archive namespace
  (src/utils.ts, `resolvePath`);
* `parseEpub` — archive ingestion producing the ordered chapter list
  (src/utils.ts, `parseEpub` / `extractParagraphs`); the DOM/zip layers are
  external collaborators and enter as oracle inputs (what `DOMParser`,
  `decodeURIComponent` and the zip lookup would return);
* `formatId` / `getNextId` — quote-ID helpers (src/utils.ts);
* `findSplitPoint` / `paginateParagraphs` — the pagination engine of the
  Reader component; DOM text measurement is an injected oracle
  `measure : text → rendered height`, heights are modelled as rationals;
* the windowed chapter loader's range updates (`handleScroll` bottom/top
  branches and `goToChapter` of the Reader component).

JS strings are modelled as `List Char` (JS strings are sequences of code
units, and all indexing in the source is unit-wise); string literals appear
as `"...".toList`.
-/

namespace GoldenLines

/-! ## JS string primitives used by the source -/

/-- Model of `String.prototype.split` with a single-character separator:
splits on every occurrence, keeping empty pieces (`"a//b".split('/')` is
`["a", "", "b"]`, `"".split('/')` is `[""]`). -/
def splitOnChar (sep : Char) : List Char → List (List Char)
  | [] => [[]]
  | c :: cs =>
    let rest := splitOnChar sep cs
    if c = sep then [] :: rest
    else
      match rest with
      | [] => [[c]]
      | piece :: pieces => (c :: piece) :: pieces

/-- Model of `String.prototype.trim`: strip whitespace from both ends. -/
def jsTrim (s : List Char) : List Char :=
  ((s.dropWhile Char.isWhitespace).reverse.dropWhile Char.isWhitespace).reverse

/-- Check that `pre` is a leading piece of `s`. -/
def prefixCheck : (s pre : List Char) → Bool
  | _, [] => true
  | [], _ :: _ => false
  | c :: cs, p :: ps => c = p && prefixCheck cs ps

/-- Model of `String.prototype.includes` (substring containment). -/
def jsIncludes (s sub : List Char) : Bool :=
  match s with
  | [] => sub.isEmpty
  | _ :: rest => prefixCheck s sub || jsIncludes rest sub

/-! ## Path Resolver (src/utils.ts, resolvePath) -/

/-- Body of the `for (const part of relParts)` loop of `resolvePath`:
`".."` pops the last accumulated segment (`Array.prototype.pop` on an empty
JS array is a no-op, modelled by `List.dropLast`), `"."` is ignored, and any
other segment is appended. -/
def processSegments (acc : List (List Char)) : List (List Char) → List (List Char)
  | [] => acc
  | part :: rest =>
    if part = ['.', '.'] then processSegments acc.dropLast rest
    else if part = ['.'] then processSegments acc rest
    else processSegments (acc ++ [part]) rest

/-- Embedding of `resolvePath(base, relative)` for executions in which the
percent-decoding succeeds: `decode` is the external `decodeURIComponent`
capability typed as a total function, i.e. the value it returns when it
does not throw (the identity on inputs without percent escapes).  The real
builtin throws `URIError` on a malformed escape; `resolvePathChecked` below
is the exception-aware embedding in which that error propagates. -/
def resolvePath (decode : List Char → List Char) (base relative : List Char) : List Char :=
  if relative.take 1 = ['/'] then relative.drop 1
  else
    let decoded := decode relative
    let baseParts := (splitOnChar '/' base).dropLast
    let relParts := splitOnChar '/' decoded
    List.intercalate ['/'] (processSegments baseParts relParts)

/-- Value of a hexadecimal digit, `none` for any other character. -/
def hexVal (c : Char) : Option Nat :=
  if '0' ≤ c ∧ c ≤ '9' then some (c.toNat - 48)
  else if 'A' ≤ c ∧ c ≤ 'F' then some (c.toNat - 55)
  else if 'a' ≤ c ∧ c ≤ 'f' then some (c.toNat - 87)
  else none

/-- First phase of the ECMAScript `Decode` operation (`decodeURIComponent`
with an empty preserve set): each `%HH` escape becomes an octet (`inr`),
every other character passes through as a literal code unit (`inl`); a `%`
not followed by two hexadecimal digits raises `URIError` (`none`). -/
def percentTokens : List Char → Option (List (Char ⊕ Nat))
  | [] => some []
  | '%' :: rest =>
    match rest with
    | h1 :: h2 :: rest2 =>
      match hexVal h1, hexVal h2 with
      | some a, some b => (percentTokens rest2).map (fun ts => .inr (a * 16 + b) :: ts)
      | _, _ => none
    | _ => none
  | c :: rest => (percentTokens rest).map (fun ts => .inl c :: ts)

/-- Second phase of the ECMAScript `Decode` operation: escaped octets are
assembled as strict UTF-8 (continuation octets in `80..BF`, no overlong
forms, no surrogates, at most `U+10FFFF`), anything else raises `URIError`
(`none`).  A decoded code point above `U+FFFF` is a surrogate pair (two
code units) in JS; Lean's `Char` cannot hold a lone surrogate, so it is
modelled as the single code point — no claim depends on astral input. -/
def utf8Assemble : List (Char ⊕ Nat) → Option (List Char)
  | [] => some []
  | .inl c :: rest => (utf8Assemble rest).map (fun out => c :: out)
  | .inr b0 :: rest =>
    if b0 < 0x80 then (utf8Assemble rest).map (fun out => Char.ofNat b0 :: out)
    else if b0 < 0xC0 then none
    else if b0 < 0xE0 then
      match rest with
      | .inr b1 :: rest2 =>
        if 0x80 ≤ b1 ∧ b1 < 0xC0 then
          let v := (b0 - 0xC0) * 0x40 + (b1 - 0x80)
          if 0x80 ≤ v then (utf8Assemble rest2).map (fun out => Char.ofNat v :: out)
          else none
        else none
      | _ => none
    else if b0 < 0xF0 then
      match rest with
      | .inr b1 :: .inr b2 :: rest2 =>
        if (0x80 ≤ b1 ∧ b1 < 0xC0) ∧ (0x80 ≤ b2 ∧ b2 < 0xC0) then
          let v := (b0 - 0xE0) * 0x1000 + (b1 - 0x80) * 0x40 + (b2 - 0x80)
          if 0x800 ≤ v ∧ ¬ (0xD800 ≤ v ∧ v ≤ 0xDFFF) then
            (utf8Assemble rest2).map (fun out => Char.ofNat v :: out)
          else none
        else none
      | _ => none
    else if b0 < 0xF8 then
      match rest with
      | .inr b1 :: .inr b2 :: .inr b3 :: rest2 =>
        if (0x80 ≤ b1 ∧ b1 < 0xC0) ∧ (0x80 ≤ b2 ∧ b2 < 0xC0) ∧ (0x80 ≤ b3 ∧ b3 < 0xC0) then
          let v := (b0 - 0xF0) * 0x40000 + (b1 - 0x80) * 0x1000 +
            (b2 - 0x80) * 0x40 + (b3 - 0x80)
          if 0x10000 ≤ v ∧ v ≤ 0x10FFFF then
            (utf8Assemble rest2).map (fun out => Char.ofNat v :: out)
          else none
        else none
      | _ => none
    else none

/-- Model of the browser builtin `decodeURIComponent`: `none` models the
thrown `URIError`. -/
def jsDecodeURIComponent (s : List Char) : Option (List Char) :=
  (percentTokens s).bind utf8Assemble

/-- Exception-aware embedding of `resolvePath(base, relative)`: identical
to `resolvePath`, except that the partiality of the `decodeURIComponent`
builtin is kept — when it throws `URIError` the exception propagates out
of `resolvePath` (the source does not catch it), modelled as `none`.  The
root-marker branch returns before any decode is attempted. -/
def resolvePathChecked (decode : List Char → Option (List Char))
    (base relative : List Char) : Option (List Char) :=
  if relative.take 1 = ['/'] then some (relative.drop 1)
  else
    match decode relative with
    | none => none
    | some decoded =>
      let baseParts := (splitOnChar '/' base).dropLast
      let relParts := splitOnChar '/' decoded
      some (List.intercalate ['/'] (processSegments baseParts relParts))

/-! ## Quote-ID helpers (src/utils.ts, formatId / getNextId) -/

/-- Embedding of the `QuoteItem` record (src/types.ts). -/
structure QuoteItem where
  id : List Char
  text : List Char
  author : Option (List Char)
  source : Option (List Char)
  tags : Option (List (List Char))
  chapterIndex : Nat
  chapterTitle : List Char
deriving DecidableEq

/-- Embedding of `formatId`: `String(num).padStart(3, '0')`. -/
def formatId (num : Nat) : List Char :=
  let s := (toString num).toList
  if s.length < 3 then List.replicate (3 - s.length) '0' ++ s else s

/-- Model of JS `parseInt(s, 10)`: the value of the maximal leading run of
decimal digits, `none` playing the role of `NaN` when there is no digit.
(Quote ids are produced by `formatId`, hence all-digit strings.) -/
def parseInt10 (s : List Char) : Option Nat :=
  let ds := s.takeWhile Char.isDigit
  if ds.isEmpty then none
  else some (ds.foldl (fun a c => a * 10 + (c.toNat - 48)) 0)

/-- NaN-propagating maximum, modelling `Math.max` on possibly-NaN numbers. -/
def jsMax : Option Nat → Option Nat → Option Nat
  | some a, some b => some (max a b)
  | _, _ => none

/-- Embedding of `getNextId(quotes, startingId)`.  `"NaN"` is what
`String(NaN).padStart(3, '0')` yields when some id fails to parse. -/
def getNextId (quotes : List QuoteItem) (startingId : Nat) : List Char :=
  match quotes.map (fun q => parseInt10 q.id) with
  | [] => formatId startingId
  | x :: xs =>
    match xs.foldl jsMax x with
    | none => "NaN".toList
    | some maxId => formatId (max (maxId + 1) startingId)

/-- Quote with a given id and all other fields defaulted; only `id` is read
by `getNextId`. -/
def quoteWithId (id : List Char) : QuoteItem :=
  ⟨id, [], none, none, none, 0, []⟩

/-! ## Pagination Engine (Reader component, findSplitPoint / paginateParagraphs) -/

/-- Embedding of the `PageParagraph` record: displayed text (a fragment when
the paragraph is split across pages), the original full paragraph text, and
the continuation flag. -/
structure PageParagraph where
  text : List Char
  fullText : List Char
  isContinuation : Bool
deriving DecidableEq

/-- Embedding of the `PageData` record.  `showTitle` is optional in the
source and always explicitly set where a page is built, so it is a plain
`Bool` here. -/
structure PageData where
  paragraphs : List PageParagraph
  showTitle : Bool
deriving DecidableEq

/-- Loop of `findSplitPoint`.  `measure` is the DOM measurer oracle
(`measurer.textContent = text.substring(0, mid); measurer.offsetHeight`).
In the source `lo` starts at `1` and only grows, which `hlo` records; it is
needed because the JS loop exits via `hi` becoming `-1`, which `Nat`
subtraction cannot represent. -/
def findSplitGo (measure : List Char → ℚ) (text : List Char) (maxHeight : ℚ)
    (lo hi best : Nat) (hlo : 0 < lo) : Nat :=
  if h : lo ≤ hi then
    let mid := (lo + hi) / 2
    if measure (text.take mid) ≤ maxHeight then
      findSplitGo measure text maxHeight (mid + 1) hi mid (by omega)
    else
      findSplitGo measure text maxHeight lo (mid - 1) best hlo
  else best
termination_by hi + 1 - lo
decreasing_by
  · omega
  · omega

/-- Embedding of `findSplitPoint(text, maxHeight, measurer)`: binary search
for the largest character count in `1 .. text.length - 1` whose rendered
height fits `maxHeight`, `0` when none fits. -/
def findSplitPoint (measure : List Char → ℚ) (text : List Char) (maxHeight : ℚ) : Nat :=
  findSplitGo measure text maxHeight 1 (text.length - 1) 0 (by omega)

/-- Inner `while (remaining.length > 0)` loop of `paginateParagraphs` for
one source paragraph `fullText`.  State: produced `pages`, the current
page's fragments `cur` and its consumed height `curHeight`.  In the source
`splitIdx` is only computed once `spaceForText >= minLineHeight` holds;
`findSplitPoint` is pure, so computing it before the conjunction is
equivalent. -/
def placeLoop (measure : List Char → ℚ) (safeHeight spacingPx minLineHeight : ℚ)
    (fullText remaining : List Char) (isFirstFragment : Bool)
    (pages : List PageData) (cur : List PageParagraph) (curHeight : ℚ) :
    List PageData × List PageParagraph × ℚ :=
  if hrem : remaining.length = 0 then (pages, cur, curHeight)
  else
    let paraHeight := measure remaining
    let gap : ℚ := if 0 < cur.length then spacingPx else 0
    let needed := paraHeight + gap
    let space := safeHeight - curHeight
    if needed ≤ space then
      (pages, cur ++ [⟨remaining, fullText, !isFirstFragment⟩], curHeight + needed)
    else
      let spaceForText := space - gap
      let splitIdx := findSplitPoint measure remaining spaceForText
      if hsplit : minLineHeight ≤ spaceForText ∧ 0 < splitIdx then
        placeLoop measure safeHeight spacingPx minLineHeight fullText
          (remaining.drop splitIdx) false
          (pages ++ [⟨cur ++ [⟨remaining.take splitIdx, fullText, !isFirstFragment⟩],
            pages.isEmpty⟩]) [] 0
      else if hcur : 0 < cur.length then
        placeLoop measure safeHeight spacingPx minLineHeight fullText
          remaining isFirstFragment (pages ++ [⟨cur, pages.isEmpty⟩]) [] 0
      else
        (pages ++ [⟨[⟨remaining, fullText, !isFirstFragment⟩], pages.isEmpty⟩], [], 0)
termination_by 2 * remaining.length + (if cur.isEmpty then 0 else 1)
decreasing_by
  · have hd : (remaining.drop splitIdx).length = remaining.length - splitIdx :=
      List.length_drop ..
    have h1 : 0 < splitIdx := hsplit.2
    simp only [List.isEmpty_nil, hd]
    cases cur <;> simp <;> omega
  · simp only [List.isEmpty_nil]
    cases cur with
    | nil => simp at hcur
    | cons a l => simp

/-- The `wrapParas` helper of `paginateParagraphs`: every paragraph becomes
a single non-continuation fragment. -/
def wrapParas (ps : List (List Char)) : List PageParagraph :=
  ps.map (fun p => (⟨p, p, false⟩ : PageParagraph))

/-- Trailing flush of `paginateParagraphs`
(`if (currentPageParas.length > 0) pages.push({...})`): append the final
page when it still holds fragments. -/
def flushTrailing (final : List PageData × List PageParagraph × ℚ) : List PageData :=
  if final.2.1.isEmpty then final.1
  else final.1 ++ [⟨final.2.1, final.1.isEmpty⟩]

/-- One iteration of the outer `for` loop of `paginateParagraphs`: place one
paragraph, starting from its full text with `isFirstFragment = true`. -/
def placePara (measure : List Char → ℚ) (safeHeight spacingPx minLineHeight : ℚ)
    (st : List PageData × List PageParagraph × ℚ) (fullText : List Char) :
    List PageData × List PageParagraph × ℚ :=
  placeLoop measure safeHeight spacingPx minLineHeight fullText fullText true st.1 st.2.1 st.2.2

/-- Embedding of `paginateParagraphs`.  `measure` models the offscreen
paragraph measurer (calibrated to `containerWidth`, `fontSize` and
`lineHeight`), `titleMeasure` the separately-styled title measurer; both
are injected oracles since DOM measurement is an external collaborator.
Heights are rationals (`availableHeight - 8` safety margin, paragraph gap
`paragraphSpacing * fontSize`, minimal line `fontSize * lineHeight`, title
reservation `titleHeight + fontSize * 1.5`).  `if (chapterTitle)` is falsy
both for an absent and for an empty title. -/
def paginateParagraphs (measure titleMeasure : List Char → ℚ)
    (allParagraphs : List (List Char)) (availableHeight : ℚ)
    (fontSize lineHeight paragraphSpacing containerWidth : ℚ)
    (chapterTitle : Option (List Char)) : List PageData :=
  if allParagraphs.length = 0 ∨ availableHeight ≤ 0 ∨ containerWidth ≤ 0 then
    [⟨wrapParas allParagraphs, true⟩]
  else
    let safeHeight := availableHeight - 8
    let spacingPx := paragraphSpacing * fontSize
    let minLineHeight := fontSize * lineHeight
    let titleHeight : ℚ :=
      match chapterTitle with
      | some t => if t.length = 0 then 0 else titleMeasure t + fontSize * (3 / 2)
      | none => 0
    let final := allParagraphs.foldl (placePara measure safeHeight spacingPx minLineHeight)
      ([], [], titleHeight)
    let pages := flushTrailing final
    if pages.isEmpty then [⟨wrapParas allParagraphs, true⟩] else pages

/-! ## Windowed chapter loader (Reader component, handleScroll / goToChapter) -/

/-- The loader's `scrollChapterRange` state `{start, end}` (`end` is a Lean
keyword, renamed `endIdx`). -/
structure LoadedWindow where
  start : Nat
  endIdx : Nat
deriving DecidableEq

/-- Bottom-proximity branch of `handleScroll`: expand `end` by one, bounded
by `chapterCount - 1`. -/
def handleScrollBottom (chapterCount : Nat) (w : LoadedWindow) : LoadedWindow :=
  if w.endIdx < chapterCount - 1 then { w with endIdx := w.endIdx + 1 } else w

/-- Top-proximity branch of `handleScroll`: expand `start` downward by one,
bounded by `0` (the prepend reentrancy lock can only suppress the update,
which the bounded-decrement statement already covers). -/
def handleScrollTop (w : LoadedWindow) : LoadedWindow :=
  if 0 < w.start then { w with start := w.start - 1 } else w

/-- `goToChapter`: reset the window to `{start: index, end: index}`. -/
def goToChapter (index : Nat) : LoadedWindow :=
  ⟨index, index⟩

/-- Reachable loader states: initial window `{0, 0}`, bottom and top
proximity signals, and explicit jumps to a valid chapter index. -/
inductive ReachableWindow (chapterCount : Nat) : LoadedWindow → Prop
  | init : ReachableWindow chapterCount ⟨0, 0⟩
  | bottom {w} : ReachableWindow chapterCount w →
      ReachableWindow chapterCount (handleScrollBottom chapterCount w)
  | top {w} : ReachableWindow chapterCount w →
      ReachableWindow chapterCount (handleScrollTop w)
  | jump {w} (target : Nat) : target ≤ chapterCount - 1 →
      ReachableWindow chapterCount w →
      ReachableWindow chapterCount (goToChapter target)

/-! ## EPUB parser (src/utils.ts, parseEpub / extractParagraphs)

The zip and the DOM are external collaborators.  The archive enters as the
list of its entry names plus, per entry, the data the `DOMParser` calls of
the source would extract from it: `containerOpfPath` is the
`full-path` attribute of the first `rootfile` element of
`META-INF/container.xml` (`none` when the element or attribute is absent),
`bookDcTitles` / `bookTitleEls` the text contents of the `dc:title` /
`title` elements of the package document, `manifest` and `spineIds` its
`item` / `itemref` data in document order, `tocMap` the href → title map
after TOC resolution (insertion order, later writes win), and `docs` the
parsed chapter documents keyed by entry path. -/

/-- Manifest entry: `{href, mediaType}` (keyed by id in the manifest map). -/
structure ManifestItem where
  href : List Char
  mediaType : List Char
deriving DecidableEq

/-- DOM data of one parsed chapter file as read by the extractor: text
contents (pre-trim) of `p` elements, of leaf `div` elements (no nested
`div`), of the `body` (`none` when there is no body), and of the
`h1`–`h4` heading elements, each in document order. -/
structure ChapterDoc where
  pTexts : List (List Char)
  leafDivTexts : List (List Char)
  bodyText : Option (List Char)
  headingTexts : List (List Char)
deriving DecidableEq

/-- Embedding of the `Chapter` record (src/types.ts). -/
structure Chapter where
  title : List Char
  paragraphs : List (List Char)
  wordCount : Nat
deriving DecidableEq

/-- JS `Map` lookup over insertion-ordered bindings: the last `set` for a
key wins. -/
def mapGet {α : Type} (entries : List (List Char × α)) (k : List Char) : Option α :=
  entries.foldl (fun acc e => if e.1 = k then some e.2 else acc) none

/-- JS `a || b` on strings: `a` unless it is empty (falsy). -/
def jsOr (a b : List Char) : List Char :=
  if a.isEmpty then b else a

/-- Embedding of `extractParagraphs(doc)`: tier 1 collects trimmed
non-empty `p` texts; when that is empty, tier 2 collects trimmed non-empty
leaf-`div` texts; when that is also empty, tier 3 splits the body text on
newline runs, keeping trimmed non-empty lines (splitting on single newlines
then dropping empties is equivalent to splitting on `/\n+/`). -/
def extractParagraphs (doc : ChapterDoc) : List (List Char) :=
  let ps := (doc.pTexts.map jsTrim).filter (fun t => !t.isEmpty)
  if !ps.isEmpty then ps
  else
    let ds := (doc.leafDivTexts.map jsTrim).filter (fun t => !t.isEmpty)
    if !ds.isEmpty then ds
    else
      match doc.bodyText with
      | none => []
      | some b =>
        let t := jsTrim b
        if t.isEmpty then []
        else ((splitOnChar '\n' t).map jsTrim).filter (fun l => !l.isEmpty)

/-- First non-empty trimmed heading text, or empty — the
`h1, h2, h3, h4` title fallback of the chapter loop. -/
def firstHeadingTitle (doc : ChapterDoc) : List Char :=
  ((doc.headingTexts.map jsTrim).find? (fun t => !t.isEmpty)).getD []

/-- Word count of the chapter: length of the joined paragraphs after
removing every whitespace character (`replace(/\s/g, '')`). -/
def chapterWordCount (paragraphs : List (List Char)) : Nat :=
  (paragraphs.flatten.filter (fun c => !c.isWhitespace)).length

/-- One iteration of the spine loop of `parseEpub`: skip when the id is
missing from the manifest, when the media type includes neither `html` nor
`xml`, when the archive lacks the resolved entry, or when all extraction
tiers are empty; otherwise resolve a title (TOC by raw href, TOC by decoded
href, first heading, synthesized `"章节 {n}"` with `n` the 1-based count of
chapters already accepted) and append the chapter. -/
def processSpineItem (decode : List Char → List Char) (zipFiles : List (List Char))
    (docs : List Char → ChapterDoc) (opfPath : List Char)
    (manifest : List (List Char × ManifestItem)) (tocMap : List (List Char × List Char))
    (chapters : List Chapter) (itemId : List Char) : List Chapter :=
  match mapGet manifest itemId with
  | none => chapters
  | some item =>
    if !(jsIncludes item.mediaType "html".toList || jsIncludes item.mediaType "xml".toList) then
      chapters
    else
      let chapterPath := resolvePath decode opfPath item.href
      if !zipFiles.contains chapterPath then chapters
      else
        let doc := docs chapterPath
        let paragraphs := extractParagraphs doc
        if paragraphs.isEmpty then chapters
        else
          let t0 := jsOr ((mapGet tocMap item.href).getD [])
            ((mapGet tocMap (decode item.href)).getD [])
          let t1 := if t0.isEmpty then firstHeadingTitle doc else t0
          let title := if t1.isEmpty then
              "章节 ".toList ++ (toString (chapters.length + 1)).toList
            else t1
          chapters ++ [⟨title, paragraphs, chapterWordCount paragraphs⟩]

/-- Ingestion error: the source throws `Error('Invalid EPUB: ...')` at
exactly three places, the spec's `MalformedArchive`. -/
inductive EpubError where
  | malformedArchive (msg : List Char)
deriving DecidableEq

/-- Embedding of `parseEpub`.  Fatal checks in source order: the fixed
entry point `META-INF/container.xml` must be a zip entry, the container
must yield a truthy package-document path (`!opfPath` is true for a missing
attribute and for the empty string), and the package document must be a zip
entry.  Then the book title is read and the spine loop builds the chapter
list; nothing after the three checks can fail. -/
def parseEpub (decode : List Char → List Char) (zipFiles : List (List Char))
    (containerOpfPath : Option (List Char))
    (bookDcTitles : List (List Char)) (bookTitleEls : List (List Char))
    (manifest : List (List Char × ManifestItem)) (spineIds : List (List Char))
    (tocMap : List (List Char × List Char)) (docs : List Char → ChapterDoc) :
    Except EpubError (List Char × List Chapter) :=
  if !zipFiles.contains "META-INF/container.xml".toList then
    .error (.malformedArchive "Invalid EPUB: missing container.xml".toList)
  else
    match containerOpfPath with
    | none => .error (.malformedArchive "Invalid EPUB: cannot find OPF path".toList)
    | some opfPath =>
      if opfPath.isEmpty then
        .error (.malformedArchive "Invalid EPUB: cannot find OPF path".toList)
      else if !zipFiles.contains opfPath then
        .error (.malformedArchive "Invalid EPUB: missing OPF file".toList)
      else
        let bookTitle :=
          match bookDcTitles with
          | t :: _ => jsOr (jsTrim t) "Unknown".toList
          | [] => ((bookTitleEls.map jsTrim).find? (fun t => !t.isEmpty)).getD "Unknown".toList
        let chapters := spineIds.foldl
          (processSpineItem decode zipFiles docs opfPath manifest tocMap) []
        .ok (bookTitle, chapters)

/-- Soft-skip predicate of the spine loop: an item is accepted exactly when
its id is in the manifest, its media type includes `html` or `xml`, the
archive has the resolved entry, and some extraction tier is non-empty. -/
def acceptsSpineItem (decode : List Char → List Char) (zipFiles : List (List Char))
    (docs : List Char → ChapterDoc) (opfPath : List Char)
    (manifest : List (List Char × ManifestItem)) (itemId : List Char) : Bool :=
  match mapGet manifest itemId with
  | none => false
  | some item =>
    (jsIncludes item.mediaType "html".toList || jsIncludes item.mediaType "xml".toList) &&
    zipFiles.contains (resolvePath decode opfPath item.href) &&
    !(extractParagraphs (docs (resolvePath decode opfPath item.href))).isEmpty

/-- Fatal-failure condition of `parseEpub`, in terms of its inputs. -/
def epubFatal (zipFiles : List (List Char)) (containerOpfPath : Option (List Char)) : Prop :=
  ¬ zipFiles.contains "META-INF/container.xml".toList = true ∨
  containerOpfPath = none ∨
  containerOpfPath = some [] ∨
  ∃ p, containerOpfPath = some p ∧ ¬ zipFiles.contains p = true

/-! ## Derived notions used to state the pagination properties -/

/-- All fragments of a pagination state in display order: the fragments of
the flushed pages followed by the current page's fragments. -/
def flatFrags (pages : List PageData) (cur : List PageParagraph) : List PageParagraph :=
  (pages.map PageData.paragraphs).flatten ++ cur

/-- The fragments `g` produced for a source paragraph `p` are lossless:
their display texts concatenate to `p`, they all carry `p` as `fullText`,
and when any fragment exists the first is the unique non-continuation. -/
def goodGroup (g : List PageParagraph) (p : List Char) : Prop :=
  (g.map PageParagraph.text).flatten = p ∧
  (∀ f ∈ g, f.fullText = p) ∧
  (g ≠ [] → g.map PageParagraph.isContinuation =
    false :: List.replicate (g.length - 1) true)

/-- `goodGroup` plus: a paragraph yields no fragment exactly when it is the
empty string. -/
def goodGroupStrict (g : List PageParagraph) (p : List Char) : Prop :=
  goodGroup g p ∧ (g = [] ↔ p = [])

/-- A produced page is well-formed: it holds at least one fragment and no
fragment displays empty text. -/
def pageOk (pg : PageData) : Prop :=
  pg.paragraphs ≠ [] ∧ ∀ f ∈ pg.paragraphs, f.text ≠ []

/-! ## Theorems -/

/-- Helper: the binary-search loop never returns more than `max best hi`. -/
theorem findSplitGo_le (measure : List Char → ℚ) (text : List Char) (maxHeight : ℚ) :
    ∀ (lo hi best : Nat) (hlo : 0 < lo),
      findSplitGo measure text maxHeight lo hi best hlo ≤ max best hi := by
  refine findSplitGo.induct measure text maxHeight
    (fun lo hi best hlo =>
      findSplitGo measure text maxHeight lo hi best hlo ≤ max best hi) ?_ ?_ ?_
  · intro lo hi best hlo hle mid hfit ih
    have hfit2 : measure (List.take ((lo + hi) / 2) text) ≤ maxHeight := hfit
    have ih2 : findSplitGo measure text maxHeight ((lo + hi) / 2 + 1) hi ((lo + hi) / 2)
        (by omega) ≤ max ((lo + hi) / 2) hi := ih
    rw [findSplitGo.eq_def, dif_pos hle]
    dsimp only
    rw [if_pos hfit2]
    exact le_trans ih2 (by omega)
  · intro lo hi best hlo hle mid hfit ih
    have hfit2 : ¬ measure (List.take ((lo + hi) / 2) text) ≤ maxHeight := hfit
    have ih2 : findSplitGo measure text maxHeight lo ((lo + hi) / 2 - 1) best hlo ≤
        max best ((lo + hi) / 2 - 1) := ih
    rw [findSplitGo.eq_def, dif_pos hle]
    dsimp only
    rw [if_neg hfit2]
    exact le_trans ih2 (by omega)
  · intro lo hi best hlo hle
    rw [findSplitGo.eq_def, dif_neg hle]
    exact le_max_left best hi

/-- Helper: a split point never reaches the end of the text. -/
theorem findSplitPoint_le (measure : List Char → ℚ) (text : List Char) (maxHeight : ℚ) :
    findSplitPoint measure text maxHeight ≤ text.length - 1 := by
  unfold findSplitPoint
  have h := findSplitGo_le measure text maxHeight 1 (text.length - 1) 0 (by omega)
  simpa using h

/-- Helper: the fragments the placement loop appends for one paragraph form
a non-empty group whose display texts concatenate to the remaining text,
which all carry the paragraph as `fullText`, and whose continuation flags
are `!isFirstFragment` on the first fragment and `true` afterwards. -/
theorem placeLoop_frags (measure : List Char → ℚ)
    (safeHeight spacingPx minLineHeight : ℚ) (fullText : List Char) :
    ∀ (remaining : List Char) (isFirstFragment : Bool) (pages : List PageData)
      (cur : List PageParagraph) (curHeight : ℚ),
      remaining ≠ [] →
      ∃ frags : List PageParagraph, frags ≠ [] ∧
        flatFrags (placeLoop measure safeHeight spacingPx minLineHeight fullText remaining
            isFirstFragment pages cur curHeight).1
          (placeLoop measure safeHeight spacingPx minLineHeight fullText remaining
            isFirstFragment pages cur curHeight).2.1 =
          flatFrags pages cur ++ frags ∧
        (frags.map PageParagraph.text).flatten = remaining ∧
        (∀ f ∈ frags, f.fullText = fullText) ∧
        frags.map PageParagraph.isContinuation =
          (!isFirstFragment) :: List.replicate (frags.length - 1) true := by
  refine placeLoop.induct measure safeHeight spacingPx minLineHeight fullText
    (fun remaining isFirstFragment pages cur curHeight =>
      remaining ≠ [] →
      ∃ frags : List PageParagraph, frags ≠ [] ∧
        flatFrags (placeLoop measure safeHeight spacingPx minLineHeight fullText remaining
            isFirstFragment pages cur curHeight).1
          (placeLoop measure safeHeight spacingPx minLineHeight fullText remaining
            isFirstFragment pages cur curHeight).2.1 =
          flatFrags pages cur ++ frags ∧
        (frags.map PageParagraph.text).flatten = remaining ∧
        (∀ f ∈ frags, f.fullText = fullText) ∧
        frags.map PageParagraph.isContinuation =
          (!isFirstFragment) :: List.replicate (frags.length - 1) true)
    ?_ ?_ ?_ ?_ ?_
  · -- remaining is empty: contradiction with the hypothesis
    intro remaining isFirstFragment pages cur curHeight hlen h
    exact absurd (List.length_eq_zero.mp hlen) h
  · -- the whole remaining text fits on the current page
    intro remaining isFirstFragment pages cur curHeight hlen
    dsimp only
    intro hfits h
    simp only [dite_eq_ite] at hfits
    refine ⟨[⟨remaining, fullText, !isFirstFragment⟩], by simp, ?_, by simp, by simp, by simp⟩
    rw [placeLoop.eq_def, dif_neg hlen]
    dsimp only
    rw [if_pos hfits]
    simp [flatFrags, List.append_assoc]
  · -- the text is split: recursive call on the dropped suffix
    intro remaining isFirstFragment pages cur curHeight hlen
    dsimp only
    intro hnofit hsplit ih h
    simp only [dite_eq_ite] at hnofit hsplit ih
    have hkle := findSplitPoint_le measure remaining
      (safeHeight - curHeight - (if 0 < cur.length then spacingPx else 0))
    have hdrop : List.drop (findSplitPoint measure remaining
        (safeHeight - curHeight - (if 0 < cur.length then spacingPx else 0))) remaining ≠ [] := by
      have h9 : (List.drop (findSplitPoint measure remaining
          (safeHeight - curHeight - (if 0 < cur.length then spacingPx else 0)))
          remaining).length ≠ 0 := by
        rw [List.length_drop]
        omega
      intro hnil
      exact h9 (by simp [hnil])
    obtain ⟨frags2, h1, h2, h3, h4, h5⟩ := ih hdrop
    refine ⟨⟨List.take (findSplitPoint measure remaining
        (safeHeight - curHeight - (if 0 < cur.length then spacingPx else 0))) remaining,
        fullText, !isFirstFragment⟩ :: frags2, by simp, ?_, ?_, ?_, ?_⟩
    · rw [placeLoop.eq_def, dif_neg hlen]
      dsimp only
      rw [if_neg hnofit, dif_pos hsplit]
      rw [h2]
      simp [flatFrags, List.flatten_append, List.append_assoc]
    · simp only [List.map_cons, List.flatten_cons, h3]
      exact List.take_append_drop _ remaining
    · intro f hf
      rcases List.mem_cons.mp hf with hf | hf
      · rw [hf]
      · exact h4 f hf
    · simp only [List.map_cons, h5, Bool.not_false]
      have hlen2 : frags2.length ≠ 0 := fun hz => h1 (List.length_eq_zero.mp hz)
      cases hn : frags2.length with
      | zero => exact absurd hn hlen2
      | succ m => simp [hn, List.replicate_succ]
  · -- current page flushed, same remaining text retried on a fresh page
    intro remaining isFirstFragment pages cur curHeight hlen
    dsimp only
    intro hnofit hnosplit hcur ih h
    simp only [dite_eq_ite] at hnofit hnosplit
    obtain ⟨frags2, h1, h2, h3, h4, h5⟩ := ih h
    refine ⟨frags2, h1, ?_, h3, h4, h5⟩
    rw [placeLoop.eq_def, dif_neg hlen]
    dsimp only
    rw [if_neg hnofit, dif_neg hnosplit, dif_pos hcur]
    rw [h2]
    simp [flatFrags, List.flatten_append, List.append_assoc]
  · -- force-placement of the whole remaining text on its own page
    intro remaining isFirstFragment pages cur curHeight hlen
    dsimp only
    intro hnofit hnosplit hcur h
    simp only [dite_eq_ite] at hnofit hnosplit
    have hc : cur = [] := by
      cases cur with
      | nil => rfl
      | cons a l => simp at hcur
    subst hc
    refine ⟨[⟨remaining, fullText, !isFirstFragment⟩], by simp, ?_, by simp, by simp, by simp⟩
    rw [placeLoop.eq_def, dif_neg hlen]
    dsimp only
    rw [if_neg hnofit, dif_neg hnosplit, dif_neg hcur]
    simp [flatFrags, List.flatten_append, List.append_assoc]

/-- C4: path resolution follows the specified algorithm — a reference
starting with the root marker is returned with the marker stripped;
otherwise the reference is percent-decoded, the base's final segment
dropped, segments processed in order (`".."` pops, `"."` is ignored,
anything else is appended) and the result joined with `/`; in particular
`resolve("OEBPS/content.opf", "../images/x.png") = "images/x.png"`. -/
theorem resolvePath_follows_algorithm :
    (∀ (decode : List Char → List Char) (base relative : List Char),
      relative.take 1 = ['/'] → resolvePath decode base relative = relative.drop 1) ∧
    (∀ (decode : List Char → List Char) (base relative : List Char),
      ¬ relative.take 1 = ['/'] →
      resolvePath decode base relative =
        List.intercalate ['/'] (processSegments ((splitOnChar '/' base).dropLast)
          (splitOnChar '/' (decode relative)))) ∧
    (∀ acc rest, processSegments acc (['.', '.'] :: rest) = processSegments acc.dropLast rest) ∧
    (∀ acc rest, processSegments acc (['.'] :: rest) = processSegments acc rest) ∧
    (∀ acc seg rest, seg ≠ ['.', '.'] → seg ≠ ['.'] →
      processSegments acc (seg :: rest) = processSegments (acc ++ [seg]) rest) ∧
    resolvePath id "OEBPS/content.opf".toList "../images/x.png".toList = "images/x.png".toList := by
  refine ⟨?_, ?_, ?_, ?_, ?_, by decide⟩
  · intro decode base relative h
    simp only [resolvePath, if_pos h]
  · intro decode base relative h
    simp only [resolvePath, if_neg h]
  · intro acc rest
    simp [processSegments]
  · intro acc rest
    simp [processSegments]
  · intro acc seg rest h1 h2
    simp [processSegments, h1, h2]

/-- Witness for C4 at concrete inputs. -/
theorem resolvePath_follows_algorithm_witness :
    resolvePath id "base".toList "/rooted/x".toList = "/rooted/x".toList.drop 1 ∧
    processSegments [['a']] [['.', '.']] = processSegments [['a']].dropLast [] :=
  ⟨resolvePath_follows_algorithm.1 id "base".toList "/rooted/x".toList (by decide),
   resolvePath_follows_algorithm.2.2.1 [['a']] []⟩

/-- C9 counterexample: `resolvePath` is not total — on the reference `"%"`
(a malformed percent escape) `decodeURIComponent` raises `URIError`, which
propagates out of `resolvePath`, refuting the claim that it never fails for
any base path and relative reference. -/
theorem resolvePath_malformed_escape_counterexample :
    jsDecodeURIComponent "%".toList = none ∧
    resolvePathChecked jsDecodeURIComponent "a/b".toList "%".toList = none := by
  exact ⟨by decide, by decide⟩

/-- C9 amended: `resolvePath` fails exactly when the reference lacks the
root marker and its percent-decoding raises `URIError`; whenever decoding
succeeds it returns the result of the total-decode embedding, and in that
result an excess `".."` against an empty accumulator is a silent no-op
(popping an empty array), so `resolve("content.opf", "../../x.png")`
returns `"x.png"`. -/
theorem resolvePath_fails_only_on_malformed_escape :
    (∀ base relative : List Char,
      (resolvePathChecked jsDecodeURIComponent base relative).isSome = true ↔
        (relative.take 1 = ['/'] ∨ (jsDecodeURIComponent relative).isSome = true)) ∧
    (∀ base relative d : List Char, jsDecodeURIComponent relative = some d →
      resolvePathChecked jsDecodeURIComponent base relative =
        some (resolvePath (fun _ => d) base relative)) ∧
    (∀ rest, processSegments [] (['.', '.'] :: rest) = processSegments [] rest) ∧
    resolvePathChecked jsDecodeURIComponent "content.opf".toList "../../x.png".toList =
      some "x.png".toList := by
  refine ⟨?_, ?_, ?_, by decide⟩
  · intro base relative
    by_cases hr : relative.take 1 = ['/']
    · simp [resolvePathChecked, hr]
    · cases hd : jsDecodeURIComponent relative with
      | none => simp [resolvePathChecked, hr, hd]
      | some d => simp [resolvePathChecked, hr, hd]
  · intro base relative d hd
    by_cases hr : relative.take 1 = ['/']
    · simp [resolvePathChecked, resolvePath, hr]
    · simp [resolvePathChecked, resolvePath, hr, hd]
  · intro rest
    simp [processSegments]

/-- Witness for C9's amended statement at a concrete input. -/
theorem resolvePath_fails_only_on_malformed_escape_witness :
    resolvePathChecked jsDecodeURIComponent "OEBPS/content.opf".toList "../x.png".toList =
      some (resolvePath (fun _ => "../x.png".toList) "OEBPS/content.opf".toList
        "../x.png".toList) :=
  resolvePath_fails_only_on_malformed_escape.2.1 "OEBPS/content.opf".toList
    "../x.png".toList "../x.png".toList (by decide)

/-- Helper: `Math.max` folded over parsed ids that all parse. -/
theorem foldl_jsMax_map_some (ns : List Nat) (n : Nat) :
    (ns.map some).foldl jsMax (some n) = some (ns.foldl max n) := by
  induction ns generalizing n with
  | nil => rfl
  | cons m ms ih => simp [jsMax, ih]

/-- C8: the quote-ID helper returns `formatId(startingId)` without quotes
and `formatId(max(maxExistingId + 1, startingId))` with quotes whose ids
all parse; concretely ids `"005"`, `"003"` with `startingId = 1` give
`"006"`, and no quotes with `startingId = 7` give `"007"`. -/
theorem getNextId_spec :
    (∀ startingId, getNextId [] startingId = formatId startingId) ∧
    (∀ (q : QuoteItem) (qs : List QuoteItem) (startingId n : Nat) (ns : List Nat),
      parseInt10 q.id = some n →
      qs.map (fun x => parseInt10 x.id) = ns.map some →
      getNextId (q :: qs) startingId = formatId (max (ns.foldl max n + 1) startingId)) ∧
    getNextId [quoteWithId "005".toList, quoteWithId "003".toList] 1 = "006".toList ∧
    getNextId [] 7 = "007".toList := by
  refine ⟨fun startingId => rfl, ?_, by decide, by decide⟩
  intro q qs startingId n ns hq hqs
  simp only [getNextId, List.map_cons, hq, hqs, foldl_jsMax_map_some]

/-- Witness for C8's general clause at a concrete input. -/
theorem getNextId_spec_witness :
    getNextId [quoteWithId "009".toList] 2 =
      formatId (max (([] : List Nat).foldl max 9 + 1) 2) :=
  getNextId_spec.2.1 (quoteWithId "009".toList) [] 2 9 [] (by decide) rfl

/-- C6: in every reachable loader state `start ≤ end ≤ chapterCount − 1`;
from `{0,0}` with `chapterCount = 10`, `k` bottom signals leave the window
at `{0, min k 9}` (strict growth of `end` until `9`, then unchanged); `k`
top signals only decrement `start`, floored at `0`; a chapter jump resets
the window to `{target, target}`. -/
theorem loadedWindow_spec :
    (∀ chapterCount w, ReachableWindow chapterCount w →
      w.start ≤ w.endIdx ∧ w.endIdx ≤ chapterCount - 1) ∧
    (∀ k, (handleScrollBottom 10)^[k] ⟨0, 0⟩ = ⟨0, min k 9⟩) ∧
    (∀ w k, handleScrollTop^[k] w = ⟨w.start - k, w.endIdx⟩) ∧
    (∀ target, goToChapter target = ⟨target, target⟩) := by
  refine ⟨?_, ?_, ?_, fun _ => rfl⟩
  · intro chapterCount w h
    induction h with
    | init => exact ⟨le_refl 0, Nat.zero_le _⟩
    | bottom _ ih =>
      rcases ih with ⟨i1, i2⟩
      simp only [handleScrollBottom]
      split <;> refine ⟨?_, ?_⟩ <;> dsimp only <;> omega
    | top _ ih =>
      rcases ih with ⟨i1, i2⟩
      simp only [handleScrollTop]
      split <;> refine ⟨?_, ?_⟩ <;> dsimp only <;> omega
    | jump target ht _ _ => exact ⟨le_refl _, ht⟩
  · intro k
    induction k with
    | zero => rfl
    | succ k ih =>
      rw [Function.iterate_succ_apply', ih]
      simp only [handleScrollBottom]
      split
      · rename_i h
        have he : min k 9 + 1 = min (k + 1) 9 := by omega
        simp [he]
      · rename_i h
        have he : min k 9 = min (k + 1) 9 := by omega
        simp [he]
  · intro w k
    induction k with
    | zero => simp
    | succ k ih =>
      rw [Function.iterate_succ_apply', ih]
      simp only [handleScrollTop]
      split
      · rename_i h
        have he : w.start - k - 1 = w.start - (k + 1) := by omega
        simp [he]
      · rename_i h
        have he : w.start - k = w.start - (k + 1) := by omega
        simp [he]

/-- Helper: a spine item rejected by the soft-skip predicate leaves the
chapter accumulator unchanged. -/
theorem processSpineItem_skip (decode : List Char → List Char) (zipFiles : List (List Char))
    (docs : List Char → ChapterDoc) (opfPath : List Char)
    (manifest : List (List Char × ManifestItem)) (tocMap : List (List Char × List Char))
    (chapters : List Chapter) (itemId : List Char)
    (h : acceptsSpineItem decode zipFiles docs opfPath manifest itemId = false) :
    processSpineItem decode zipFiles docs opfPath manifest tocMap chapters itemId = chapters := by
  unfold processSpineItem
  cases hm : mapGet manifest itemId with
  | none => rfl
  | some item =>
    dsimp only
    split
    · rfl
    · split
      · rfl
      · split
        · rfl
        · rename_i hA hB hC
          exfalso
          unfold acceptsSpineItem at h
          rw [hm] at h
          dsimp only at h
          simp at hA hB hC
          simp [hB, hC] at h
          exact absurd (hA h.1) (by simp [h.2])

/-- Helper: the spine fold ignores skipped items — folding over the spine
equals folding over its accepted sublist, from any accumulator. -/
theorem foldl_processSpineItem_filter (decode : List Char → List Char)
    (zipFiles : List (List Char)) (docs : List Char → ChapterDoc) (opfPath : List Char)
    (manifest : List (List Char × ManifestItem)) (tocMap : List (List Char × List Char))
    (spineIds : List (List Char)) (init : List Chapter) :
    spineIds.foldl (processSpineItem decode zipFiles docs opfPath manifest tocMap) init =
      (spineIds.filter (acceptsSpineItem decode zipFiles docs opfPath manifest)).foldl
        (processSpineItem decode zipFiles docs opfPath manifest tocMap) init := by
  induction spineIds generalizing init with
  | nil => rfl
  | cons a l ih =>
    by_cases ha : acceptsSpineItem decode zipFiles docs opfPath manifest a = true
    · simp only [List.foldl_cons, List.filter_cons, if_pos ha]
      exact ih _
    · have ha' : acceptsSpineItem decode zipFiles docs opfPath manifest a = false := by
        simpa using ha
      simp only [List.foldl_cons, List.filter_cons, if_neg ha]
      rw [processSpineItem_skip decode zipFiles docs opfPath manifest tocMap init a ha']
      exact ih _

/-- C5: ingestion fails (always with the `MalformedArchive` error) exactly
when the fixed entry point is absent, the container yields no truthy
package-document path, or the package document is absent from the archive;
every spine-level problem is a soft skip that contributes no chapter, and
the chapter list is the one built from the accepted spine items alone. -/
theorem parseEpub_fatal_iff_and_soft_skips :
    (∀ (decode : List Char → List Char) (zipFiles : List (List Char))
      (containerOpfPath : Option (List Char))
      (bookDcTitles bookTitleEls : List (List Char))
      (manifest : List (List Char × ManifestItem)) (spineIds : List (List Char))
      (tocMap : List (List Char × List Char)) (docs : List Char → ChapterDoc),
      (∃ e, parseEpub decode zipFiles containerOpfPath bookDcTitles bookTitleEls
        manifest spineIds tocMap docs = .error e) ↔ epubFatal zipFiles containerOpfPath) ∧
    (∀ (decode : List Char → List Char) (zipFiles : List (List Char))
      (docs : List Char → ChapterDoc) (opfPath : List Char)
      (manifest : List (List Char × ManifestItem)) (tocMap : List (List Char × List Char))
      (chapters : List Chapter) (itemId : List Char),
      acceptsSpineItem decode zipFiles docs opfPath manifest itemId = false →
      processSpineItem decode zipFiles docs opfPath manifest tocMap chapters itemId =
        chapters) ∧
    (∀ (decode : List Char → List Char) (zipFiles : List (List Char))
      (docs : List Char → ChapterDoc) (opfPath : List Char)
      (manifest : List (List Char × ManifestItem)) (tocMap : List (List Char × List Char))
      (spineIds : List (List Char)),
      spineIds.foldl (processSpineItem decode zipFiles docs opfPath manifest tocMap) [] =
        (spineIds.filter (acceptsSpineItem decode zipFiles docs opfPath manifest)).foldl
          (processSpineItem decode zipFiles docs opfPath manifest tocMap) []) := by
  refine ⟨?_, processSpineItem_skip,
    fun decode zipFiles docs opfPath manifest tocMap spineIds =>
      foldl_processSpineItem_filter decode zipFiles docs opfPath manifest tocMap spineIds []⟩
  intro decode zipFiles containerOpfPath bookDcTitles bookTitleEls manifest spineIds tocMap docs
  by_cases h1 : zipFiles.contains "META-INF/container.xml".toList = true
  · cases containerOpfPath with
    | none =>
      apply iff_of_true
      · exact ⟨_, by unfold parseEpub; rw [h1]; rfl⟩
      · exact Or.inr (Or.inl rfl)
    | some p =>
      by_cases h2 : p.isEmpty = true
      · have hp : p = [] := by simpa using h2
        subst hp
        apply iff_of_true
        · exact ⟨_, by unfold parseEpub; rw [h1]; rfl⟩
        · exact Or.inr (Or.inr (Or.inl rfl))
      · have h2' : p.isEmpty = false := by simpa using h2
        have hp : p ≠ [] := by simpa using h2
        by_cases h3 : zipFiles.contains p = true
        · apply iff_of_false
          · rintro ⟨e, he⟩
            unfold parseEpub at he
            rw [h1] at he
            dsimp only at he
            rw [h2', h3] at he
            simp at he
          · rintro (hc | hc | hc | ⟨q, hq, hcq⟩)
            · exact hc h1
            · exact Option.noConfusion hc
            · injection hc with hpc
              exact hp hpc
            · injection hq with hpq
              subst hpq
              exact hcq h3
        · have h3' : zipFiles.contains p = false := by simpa using h3
          apply iff_of_true
          · refine ⟨.malformedArchive "Invalid EPUB: missing OPF file".toList, ?_⟩
            unfold parseEpub
            rw [h1]
            dsimp only
            rw [h2', h3']
            rfl
          · exact Or.inr (Or.inr (Or.inr ⟨p, rfl, h3⟩))
  · have h1' : zipFiles.contains "META-INF/container.xml".toList = false := by simpa using h1
    apply iff_of_true
    · exact ⟨_, by unfold parseEpub; rw [h1']; rfl⟩
    · exact Or.inl h1

/-- Witness for C5's soft-skip clause at a concrete input (id absent from
the manifest). -/
theorem parseEpub_fatal_iff_and_soft_skips_witness :
    processSpineItem id [] (fun _ => ⟨[], [], none, []⟩) [] [] [] [] "x".toList = [] :=
  parseEpub_fatal_iff_and_soft_skips.2.1 id [] (fun _ => ⟨[], [], none, []⟩) [] [] [] []
    "x".toList (by decide)

/-- C7 counterexample: on a well-formed archive whose single chapter has no
TOC entry and no heading, the synthesized title is `"章节 1"`, not
`"Chapter 1"` as the claim states. -/
theorem chapterTitle_synthesis_counterexample :
    parseEpub id
      ["META-INF/container.xml".toList, "content.opf".toList, "ch1.xhtml".toList]
      (some "content.opf".toList) [] []
      [("c1".toList, ⟨"ch1.xhtml".toList, "application/xhtml+xml".toList⟩)]
      ["c1".toList] [] (fun _ => ⟨["hello".toList], [], none, []⟩) =
      .ok ("Unknown".toList,
        [⟨"章节 1".toList, ["hello".toList], 5⟩]) ∧
    "章节 1".toList ≠ "Chapter 1".toList := by
  constructor
  · rfl
  · decide

/-- C7 amended: when the TOC map misses both the raw and the decoded href
and no heading yields a non-empty trimmed text, the accepted chapter's
title is `"章节 {n}"` (the source's Chinese label for "Chapter") with `n`
the 1-based count of chapters already accepted. -/
theorem chapterTitle_synthesis_amended :
    ∀ (decode : List Char → List Char) (zipFiles : List (List Char))
      (docs : List Char → ChapterDoc) (opfPath : List Char)
      (manifest : List (List Char × ManifestItem)) (tocMap : List (List Char × List Char))
      (chapters : List Chapter) (itemId : List Char) (item : ManifestItem),
      mapGet manifest itemId = some item →
      (jsIncludes item.mediaType "html".toList || jsIncludes item.mediaType "xml".toList)
        = true →
      zipFiles.contains (resolvePath decode opfPath item.href) = true →
      (extractParagraphs (docs (resolvePath decode opfPath item.href))).isEmpty = false →
      (jsOr ((mapGet tocMap item.href).getD [])
        ((mapGet tocMap (decode item.href)).getD [])).isEmpty = true →
      (firstHeadingTitle (docs (resolvePath decode opfPath item.href))).isEmpty = true →
      processSpineItem decode zipFiles docs opfPath manifest tocMap chapters itemId =
        chapters ++ [⟨"章节 ".toList ++ (toString (chapters.length + 1)).toList,
          extractParagraphs (docs (resolvePath decode opfPath item.href)),
          chapterWordCount (extractParagraphs (docs (resolvePath decode opfPath item.href)))⟩]
      := by
  intro decode zipFiles docs opfPath manifest tocMap chapters itemId item
    hm hmedia hzip hext ht0 hhead
  unfold processSpineItem
  rw [hm]
  have hmem : resolvePath decode opfPath item.href ∈ zipFiles := by simpa using hzip
  rw [Bool.or_eq_true] at hmedia
  rcases hmedia with hh | hx
  · simp at hh
    simp [hh, hmem, hext, ht0, hhead]
  · simp at hx
    simp [hx, hmem, hext, ht0, hhead]

/-- Witness for C7's amended statement at a concrete input. -/
theorem chapterTitle_synthesis_amended_witness :
    processSpineItem id ["a.xhtml".toList] (fun _ => ⟨["hi".toList], [], none, []⟩) []
      [("c1".toList, ⟨"a.xhtml".toList, "text/html".toList⟩)] [] [] "c1".toList =
      [] ++ [⟨"章节 ".toList ++ (toString (([] : List Chapter).length + 1)).toList,
        extractParagraphs ((fun _ => (⟨["hi".toList], [], none, []⟩ : ChapterDoc))
          (resolvePath id []
            (⟨"a.xhtml".toList, "text/html".toList⟩ : ManifestItem).href)),
        chapterWordCount (extractParagraphs
          ((fun _ => (⟨["hi".toList], [], none, []⟩ : ChapterDoc))
            (resolvePath id []
              (⟨"a.xhtml".toList, "text/html".toList⟩ : ManifestItem).href)))⟩] :=
  chapterTitle_synthesis_amended id ["a.xhtml".toList]
    (fun _ => ⟨["hi".toList], [], none, []⟩) []
    [("c1".toList, ⟨"a.xhtml".toList, "text/html".toList⟩)] [] [] "c1".toList
    ⟨"a.xhtml".toList, "text/html".toList⟩ (by decide) (by decide) (by decide)
    (by decide) (by decide) (by decide)

/-- Helper: singleton wrap groups are good for any paragraph list. -/
theorem wrap_forall2 (ps : List (List Char)) :
    List.Forall₂ goodGroup (ps.map fun p => ([⟨p, p, false⟩] : List PageParagraph)) ps := by
  induction ps with
  | nil => exact List.Forall₂.nil
  | cons q qs ihq =>
    refine List.Forall₂.cons ⟨by simp, by simp, by simp⟩ ihq

/-- Helper: flattening the singleton wrap groups gives `wrapParas`. -/
theorem wrap_flatten (ps : List (List Char)) :
    (ps.map fun p => ([⟨p, p, false⟩] : List PageParagraph)).flatten = wrapParas ps := by
  induction ps with
  | nil => rfl
  | cons q qs ihq => simp [wrapParas, ihq]

/-- Helper: placing an empty paragraph leaves the pagination state
unchanged. -/
theorem placePara_nil (measure : List Char → ℚ) (safeHeight spacingPx minLineHeight : ℚ)
    (st : List PageData × List PageParagraph × ℚ) :
    placePara measure safeHeight spacingPx minLineHeight st [] = st := by
  unfold placePara
  rw [placeLoop.eq_def]
  simp

/-- Helper: folding the placement over a paragraph list splits the produced
fragment stream into per-paragraph groups — lossless, correctly tagged and
flagged, empty exactly for empty paragraphs. -/
theorem foldl_placePara_spec (measure : List Char → ℚ)
    (safeHeight spacingPx minLineHeight : ℚ) :
    ∀ (ps : List (List Char)) (st : List PageData × List PageParagraph × ℚ),
      ∃ groups : List (List PageParagraph),
        List.Forall₂ goodGroupStrict groups ps ∧
        flatFrags (ps.foldl (placePara measure safeHeight spacingPx minLineHeight) st).1
          (ps.foldl (placePara measure safeHeight spacingPx minLineHeight) st).2.1 =
          flatFrags st.1 st.2.1 ++ groups.flatten := by
  intro ps
  induction ps with
  | nil => exact fun st => ⟨[], List.Forall₂.nil, by simp⟩
  | cons p ps ih =>
    intro st
    by_cases hp : p = []
    · subst hp
      obtain ⟨groups, hg, hflat⟩ := ih st
      refine ⟨[] :: groups,
        List.Forall₂.cons ⟨⟨by simp, by simp, by simp⟩, by simp⟩ hg, ?_⟩
      rw [List.foldl_cons, placePara_nil, hflat]
      simp
    · obtain ⟨frags, hne, hflat2, htext, hfull, hflags⟩ :=
        placeLoop_frags measure safeHeight spacingPx minLineHeight p p true st.1 st.2.1 st.2.2 hp
      obtain ⟨groups, hg, hflat⟩ :=
        ih (placePara measure safeHeight spacingPx minLineHeight st p)
      refine ⟨frags :: groups,
        List.Forall₂.cons ⟨⟨htext, hfull, fun _ => by simpa using hflags⟩,
          by simp [hne, hp]⟩ hg, ?_⟩
      rw [List.foldl_cons, hflat]
      unfold placePara
      rw [hflat2]
      simp [List.flatten_cons, List.append_assoc]

/-- Helper: the trailing flush preserves the fragment stream. -/
theorem flushTrailing_flatten (final : List PageData × List PageParagraph × ℚ) :
    ((flushTrailing final).map PageData.paragraphs).flatten =
      flatFrags final.1 final.2.1 := by
  unfold flushTrailing
  by_cases hc : final.2.1.isEmpty
  · rw [if_pos hc]
    have h0 : final.2.1 = [] := by simpa using hc
    simp [flatFrags, h0]
  · rw [if_neg hc]
    simp [flatFrags]

/-- Helper: group decomposition of the assembled (flushed) page list of the
main pagination path, for any title reservation. -/
theorem paginate_assembled_spec (measure : List Char → ℚ)
    (safeHeight spacingPx minLineHeight titleHeight : ℚ) (ps : List (List Char)) :
    ∃ groups : List (List PageParagraph),
      List.Forall₂ goodGroupStrict groups ps ∧
      ((flushTrailing (ps.foldl (placePara measure safeHeight spacingPx minLineHeight)
        ([], [], titleHeight))).map PageData.paragraphs).flatten = groups.flatten := by
  obtain ⟨groups, hg, hflat⟩ :=
    foldl_placePara_spec measure safeHeight spacingPx minLineHeight ps ([], [], titleHeight)
  refine ⟨groups, hg, ?_⟩
  rw [flushTrailing_flatten, hflat]
  simp [flatFrags]

/-- C1: lossless pagination — the produced fragment stream decomposes into
consecutive per-paragraph groups: each group's display texts concatenate in
page order to exactly the original paragraph text, each fragment carries
the paragraph as `fullText`, and whenever a paragraph has fragments the
first has `isContinuation = false` and all later ones `true`. -/
theorem paginateParagraphs_lossless :
    ∀ (measure titleMeasure : List Char → ℚ) (ps : List (List Char))
      (availableHeight fontSize lineHeight paragraphSpacing containerWidth : ℚ)
      (title : Option (List Char)),
      ∃ groups : List (List PageParagraph),
        List.Forall₂ goodGroup groups ps ∧
        ((paginateParagraphs measure titleMeasure ps availableHeight fontSize lineHeight
          paragraphSpacing containerWidth title).map PageData.paragraphs).flatten =
          groups.flatten := by
  intro measure titleMeasure ps availableHeight fontSize lineHeight paragraphSpacing
    containerWidth title
  unfold paginateParagraphs
  by_cases hdeg : ps.length = 0 ∨ availableHeight ≤ 0 ∨ containerWidth ≤ 0
  · rw [if_pos hdeg]
    exact ⟨_, wrap_forall2 ps, by simp [wrap_flatten]⟩
  · rw [if_neg hdeg]
    dsimp only
    cases title with
    | none =>
      dsimp only
      split_ifs with hfb
      · exact ⟨_, wrap_forall2 ps, by simp [wrap_flatten]⟩
      · obtain ⟨groups, hg, hflat⟩ := paginate_assembled_spec measure (availableHeight - 8)
          (paragraphSpacing * fontSize) (fontSize * lineHeight) 0 ps
        exact ⟨groups, List.Forall₂.imp (fun a b hab => hab.1) hg, hflat⟩
    | some t =>
      dsimp only
      split_ifs with ht hfb hfb2
      · exact ⟨_, wrap_forall2 ps, by simp [wrap_flatten]⟩
      · obtain ⟨groups, hg, hflat⟩ := paginate_assembled_spec measure (availableHeight - 8)
          (paragraphSpacing * fontSize) (fontSize * lineHeight) 0 ps
        exact ⟨groups, List.Forall₂.imp (fun a b hab => hab.1) hg, hflat⟩
      · exact ⟨_, wrap_forall2 ps, by simp [wrap_flatten]⟩
      · obtain ⟨groups, hg, hflat⟩ := paginate_assembled_spec measure (availableHeight - 8)
          (paragraphSpacing * fontSize) (fontSize * lineHeight)
          (titleMeasure t + fontSize * (3 / 2)) ps
        exact ⟨groups, List.Forall₂.imp (fun a b hab => hab.1) hg, hflat⟩

/-- Witness for C1 at a concrete input. -/
theorem paginateParagraphs_lossless_witness :
    ∃ groups : List (List PageParagraph),
      List.Forall₂ goodGroup groups ["ab".toList] ∧
      ((paginateParagraphs (fun _ => (0 : ℚ)) (fun _ => (0 : ℚ)) ["ab".toList] 100 10 2 1 50
        none).map PageData.paragraphs).flatten = groups.flatten :=
  paginateParagraphs_lossless (fun _ => 0) (fun _ => 0) ["ab".toList] 100 10 2 1 50 none

/-- Helper: the placement loop preserves page well-formedness — every
flushed page stays non-empty with non-empty display texts, and the current
page's fragments keep non-empty display texts. -/
theorem placeLoop_pagesOk (measure : List Char → ℚ)
    (safeHeight spacingPx minLineHeight : ℚ) (fullText : List Char) :
    ∀ (remaining : List Char) (isFirstFragment : Bool) (pages : List PageData)
      (cur : List PageParagraph) (curHeight : ℚ),
      (∀ pg ∈ pages, pageOk pg) → (∀ f ∈ cur, f.text ≠ []) →
      (∀ pg ∈ (placeLoop measure safeHeight spacingPx minLineHeight fullText remaining
        isFirstFragment pages cur curHeight).1, pageOk pg) ∧
      (∀ f ∈ (placeLoop measure safeHeight spacingPx minLineHeight fullText remaining
        isFirstFragment pages cur curHeight).2.1, f.text ≠ []) := by
  refine placeLoop.induct measure safeHeight spacingPx minLineHeight fullText
    (fun remaining isFirstFragment pages cur curHeight =>
      (∀ pg ∈ pages, pageOk pg) → (∀ f ∈ cur, f.text ≠ []) →
      (∀ pg ∈ (placeLoop measure safeHeight spacingPx minLineHeight fullText remaining
        isFirstFragment pages cur curHeight).1, pageOk pg) ∧
      (∀ f ∈ (placeLoop measure safeHeight spacingPx minLineHeight fullText remaining
        isFirstFragment pages cur curHeight).2.1, f.text ≠ []))
    ?_ ?_ ?_ ?_ ?_
  · intro remaining isFirstFragment pages cur curHeight hlen hpg hcur2
    rw [placeLoop.eq_def, dif_pos hlen]
    exact ⟨hpg, hcur2⟩
  · intro remaining isFirstFragment pages cur curHeight hlen
    dsimp only
    intro hfits hpg hcur2
    simp only [dite_eq_ite] at hfits
    rw [placeLoop.eq_def, dif_neg hlen]
    dsimp only
    rw [if_pos hfits]
    refine ⟨hpg, ?_⟩
    intro f hf
    rcases List.mem_append.mp hf with hf | hf
    · exact hcur2 f hf
    · have hfe : f = ⟨remaining, fullText, !isFirstFragment⟩ := by simpa using hf
      rw [hfe]
      exact fun he => hlen (by simp [show remaining = [] from he])
  · intro remaining isFirstFragment pages cur curHeight hlen
    dsimp only
    intro hnofit hsplit ih hpg hcur2
    simp only [dite_eq_ite] at hnofit hsplit ih
    rw [placeLoop.eq_def, dif_neg hlen]
    dsimp only
    rw [if_neg hnofit, dif_pos hsplit]
    apply ih
    · intro pg hpg2
      rcases List.mem_append.mp hpg2 with h9 | h9
      · exact hpg pg h9
      · have hpe : pg = ⟨cur ++ [⟨List.take (findSplitPoint measure remaining
            (safeHeight - curHeight - (if 0 < cur.length then spacingPx else 0))) remaining,
            fullText, !isFirstFragment⟩], pages.isEmpty⟩ := by simpa using h9
        rw [hpe]
        refine ⟨by simp, ?_⟩
        intro f hf
        rcases List.mem_append.mp hf with hf | hf
        · exact hcur2 f hf
        · have hf2 : f = ⟨List.take (findSplitPoint measure remaining
              (safeHeight - curHeight - (if 0 < cur.length then spacingPx else 0))) remaining,
              fullText, !isFirstFragment⟩ := by simpa using hf
          rw [hf2]
          intro hnil
          have hk := hsplit.2
          have h10 : min (findSplitPoint measure remaining
              (safeHeight - curHeight - (if 0 < cur.length then spacingPx else 0)))
              remaining.length = 0 := by
            simpa [List.length_take] using congrArg List.length hnil
          omega
    · intro f hf
      exact absurd hf (List.not_mem_nil f)
  · intro remaining isFirstFragment pages cur curHeight hlen
    dsimp only
    intro hnofit hnosplit hcur ih hpg hcur2
    simp only [dite_eq_ite] at hnofit hnosplit
    rw [placeLoop.eq_def, dif_neg hlen]
    dsimp only
    rw [if_neg hnofit, dif_neg hnosplit, dif_pos hcur]
    apply ih
    · intro pg hpg2
      rcases List.mem_append.mp hpg2 with h9 | h9
      · exact hpg pg h9
      · have hpe : pg = ⟨cur, pages.isEmpty⟩ := by simpa using h9
        rw [hpe]
        refine ⟨?_, hcur2⟩
        intro hnil
        rw [show cur = [] from hnil] at hcur
        simp at hcur
    · intro f hf
      exact absurd hf (List.not_mem_nil f)
  · intro remaining isFirstFragment pages cur curHeight hlen
    dsimp only
    intro hnofit hnosplit hcur hpg hcur2
    simp only [dite_eq_ite] at hnofit hnosplit
    rw [placeLoop.eq_def, dif_neg hlen]
    dsimp only
    rw [if_neg hnofit, dif_neg hnosplit, dif_neg hcur]
    refine ⟨?_, fun f hf => absurd hf (List.not_mem_nil f)⟩
    intro pg hpg2
    rcases List.mem_append.mp hpg2 with h9 | h9
    · exact hpg pg h9
    · have hpe : pg = ⟨[⟨remaining, fullText, !isFirstFragment⟩], pages.isEmpty⟩ := by
        simpa using h9
      rw [hpe]
      refine ⟨by simp, ?_⟩
      intro f hf
      have hf2 : f = ⟨remaining, fullText, !isFirstFragment⟩ := by simpa using hf
      rw [hf2]
      exact fun he => hlen (by simp [show remaining = [] from he])

/-- Helper: the paragraph fold preserves page well-formedness. -/
theorem foldl_placePara_pagesOk (measure : List Char → ℚ)
    (safeHeight spacingPx minLineHeight : ℚ) :
    ∀ (ps : List (List Char)) (st : List PageData × List PageParagraph × ℚ),
      (∀ pg ∈ st.1, pageOk pg) → (∀ f ∈ st.2.1, f.text ≠ []) →
      (∀ pg ∈ (ps.foldl (placePara measure safeHeight spacingPx minLineHeight) st).1,
        pageOk pg) ∧
      (∀ f ∈ (ps.foldl (placePara measure safeHeight spacingPx minLineHeight) st).2.1,
        f.text ≠ []) := by
  intro ps
  induction ps with
  | nil => exact fun st h1 h2 => ⟨h1, h2⟩
  | cons p ps ih =>
    intro st h1 h2
    rw [List.foldl_cons]
    have h3 := placeLoop_pagesOk measure safeHeight spacingPx minLineHeight p p true
      st.1 st.2.1 st.2.2 h1 h2
    exact ih (placePara measure safeHeight spacingPx minLineHeight st p) h3.1 h3.2

/-- Helper: the trailing flush preserves page well-formedness. -/
theorem flushTrailing_pagesOk (final : List PageData × List PageParagraph × ℚ)
    (h1 : ∀ pg ∈ final.1, pageOk pg) (h2 : ∀ f ∈ final.2.1, f.text ≠ []) :
    ∀ pg ∈ flushTrailing final, pageOk pg := by
  unfold flushTrailing
  by_cases hc : final.2.1.isEmpty
  · rw [if_pos hc]
    exact h1
  · rw [if_neg hc]
    intro pg hpg
    rcases List.mem_append.mp hpg with h | h
    · exact h1 pg h
    · have hpe : pg = ⟨final.2.1, final.1.isEmpty⟩ := by simpa using h
      rw [hpe]
      exact ⟨by simpa using hc, h2⟩

/-- Helper: a non-empty fragment stream survives the trailing flush. -/
theorem flushTrailing_ne_nil (final : List PageData × List PageParagraph × ℚ)
    (h : flatFrags final.1 final.2.1 ≠ []) : flushTrailing final ≠ [] := by
  unfold flushTrailing
  by_cases hc : final.2.1.isEmpty
  · rw [if_pos hc]
    have h0 : final.2.1 = [] := by simpa using hc
    intro h1
    exact h (by simp [flatFrags, h0, h1])
  · rw [if_neg hc]
    simp

/-- Helper: a non-empty paragraph forces a non-empty fragment stream. -/
theorem groups_flatten_ne_nil {groups : List (List PageParagraph)}
    {ps : List (List Char)} (hg : List.Forall₂ goodGroupStrict groups ps) :
    ∀ p ∈ ps, p ≠ [] → groups.flatten ≠ [] := by
  induction hg with
  | nil => exact fun p hp _ => absurd hp (List.not_mem_nil p)
  | @cons a b as bs hab hrest ih =>
    intro p hp hpne
    rcases List.mem_cons.mp hp with rfl | hp2
    · have ha : a ≠ [] := fun hnil => hpne (hab.2.mp hnil)
      simp [List.flatten_cons, ha]
    · have hne := ih p hp2 hpne
      simp [List.flatten_cons, hne]

/-- Helper: in the main pagination path with some non-empty paragraph, the
flushed page list is non-empty, well-formed, and carries the per-paragraph
group decomposition. -/
theorem paginate_assembled_full (measure : List Char → ℚ)
    (safeHeight spacingPx minLineHeight titleHeight : ℚ) (ps : List (List Char))
    (p : List Char) (hpmem : p ∈ ps) (hpne : p ≠ []) :
    (flushTrailing (ps.foldl (placePara measure safeHeight spacingPx minLineHeight)
      ([], [], titleHeight))).isEmpty = false ∧
    (∀ pg ∈ flushTrailing (ps.foldl (placePara measure safeHeight spacingPx minLineHeight)
      ([], [], titleHeight)), pageOk pg) ∧
    ∃ groups : List (List PageParagraph),
      List.Forall₂ goodGroupStrict groups ps ∧
      ((flushTrailing (ps.foldl (placePara measure safeHeight spacingPx minLineHeight)
        ([], [], titleHeight))).map PageData.paragraphs).flatten = groups.flatten := by
  obtain ⟨groups, hg, hflat⟩ :=
    foldl_placePara_spec measure safeHeight spacingPx minLineHeight ps ([], [], titleHeight)
  have hok := foldl_placePara_pagesOk measure safeHeight spacingPx minLineHeight ps
    ([], [], titleHeight) (by simp) (by simp)
  have hfne : flatFrags
      (ps.foldl (placePara measure safeHeight spacingPx minLineHeight) ([], [], titleHeight)).1
      (ps.foldl (placePara measure safeHeight spacingPx minLineHeight)
        ([], [], titleHeight)).2.1 ≠ [] := by
    rw [hflat]
    simpa [flatFrags] using groups_flatten_ne_nil hg p hpmem hpne
  refine ⟨by simpa using flushTrailing_ne_nil _ hfne,
    flushTrailing_pagesOk _ hok.1 hok.2, groups, hg, ?_⟩
  rw [flushTrailing_flatten, hflat]
  simp [flatFrags]

/-- C10 counterexample: with positive dimensions and the non-empty
paragraph list `[""]`, the engine's fallback returns one page holding a
fragment whose display text is empty and whose source paragraph is the
empty string — refuting both the "every fragment's display text is
non-empty" and the "an empty paragraph contributes no fragment" parts of
the claim as stated. -/
theorem paginate_empty_paragraph_counterexample :
    ∃ pg ∈ paginateParagraphs (fun _ => (0 : ℚ)) (fun _ => (0 : ℚ)) [([] : List Char)] 100 10 2
      1 50 none, ∃ f ∈ pg.paragraphs, f.text = [] ∧ f.fullText = [] := by
  have hres : paginateParagraphs (fun _ => (0 : ℚ)) (fun _ => (0 : ℚ)) [([] : List Char)] 100
      10 2 1 50 none = [⟨[⟨[], [], false⟩], true⟩] := by
    unfold paginateParagraphs
    rw [if_neg (by norm_num)]
    dsimp only
    rw [List.foldl_cons, List.foldl_nil, placePara_nil]
    rfl
  rw [hres]
  refine ⟨⟨[⟨[], [], false⟩], true⟩, by simp, ⟨[], [], false⟩, by simp, rfl, rfl⟩

/-- C10 amended: the engine always returns at least one page; when height
and width are positive and at least one paragraph is non-empty, every
returned page holds at least one fragment, every fragment's display text is
non-empty, and the fragment stream decomposes into per-paragraph groups in
which exactly the empty paragraphs contribute no fragment.  (When every
paragraph is the empty string, the fallback instead returns one page
wrapping all paragraphs verbatim.) -/
theorem paginateParagraphs_page_invariants :
    (∀ (measure titleMeasure : List Char → ℚ) (ps : List (List Char))
      (availableHeight fontSize lineHeight paragraphSpacing containerWidth : ℚ)
      (title : Option (List Char)),
      1 ≤ (paginateParagraphs measure titleMeasure ps availableHeight fontSize lineHeight
        paragraphSpacing containerWidth title).length) ∧
    (∀ (measure titleMeasure : List Char → ℚ) (ps : List (List Char))
      (availableHeight fontSize lineHeight paragraphSpacing containerWidth : ℚ)
      (title : Option (List Char)),
      0 < availableHeight → 0 < containerWidth → (∃ p ∈ ps, p ≠ []) →
      (∀ pg ∈ paginateParagraphs measure titleMeasure ps availableHeight fontSize lineHeight
        paragraphSpacing containerWidth title, pageOk pg) ∧
      ∃ groups : List (List PageParagraph),
        List.Forall₂ goodGroupStrict groups ps ∧
        ((paginateParagraphs measure titleMeasure ps availableHeight fontSize lineHeight
          paragraphSpacing containerWidth title).map PageData.paragraphs).flatten =
          groups.flatten) := by
  constructor
  · intro measure titleMeasure ps availableHeight fontSize lineHeight paragraphSpacing
      containerWidth title
    unfold paginateParagraphs
    by_cases hdeg : ps.length = 0 ∨ availableHeight ≤ 0 ∨ containerWidth ≤ 0
    · rw [if_pos hdeg]
      simp
    · rw [if_neg hdeg]
      dsimp only
      split_ifs with hfb
      · simp
      · exact List.length_pos.mpr (by simpa using hfb)
  · intro measure titleMeasure ps availableHeight fontSize lineHeight paragraphSpacing
      containerWidth title hh hw hex
    obtain ⟨p, hpmem, hpne⟩ := hex
    have hdeg : ¬ (ps.length = 0 ∨ availableHeight ≤ 0 ∨ containerWidth ≤ 0) := by
      push_neg
      refine ⟨?_, hh, hw⟩
      intro h0
      rw [List.length_eq_zero] at h0
      subst h0
      exact absurd hpmem (List.not_mem_nil p)
    unfold paginateParagraphs
    rw [if_neg hdeg]
    dsimp only
    cases title with
    | none =>
      dsimp only
      have hmain := paginate_assembled_full measure (availableHeight - 8)
        (paragraphSpacing * fontSize) (fontSize * lineHeight) 0 ps p hpmem hpne
      rw [if_neg (by simp [hmain.1])]
      exact ⟨hmain.2.1, hmain.2.2⟩
    | some t =>
      dsimp only
      split_ifs with ht hfb1 hfb2
      · have hmain := paginate_assembled_full measure (availableHeight - 8)
          (paragraphSpacing * fontSize) (fontSize * lineHeight) 0 ps p hpmem hpne
        exact absurd hfb1 (by simp [hmain.1])
      · have hmain := paginate_assembled_full measure (availableHeight - 8)
          (paragraphSpacing * fontSize) (fontSize * lineHeight) 0 ps p hpmem hpne
        exact ⟨hmain.2.1, hmain.2.2⟩
      · have hmain := paginate_assembled_full measure (availableHeight - 8)
          (paragraphSpacing * fontSize) (fontSize * lineHeight)
          (titleMeasure t + fontSize * (3 / 2)) ps p hpmem hpne
        exact absurd hfb2 (by simp [hmain.1])
      · have hmain := paginate_assembled_full measure (availableHeight - 8)
          (paragraphSpacing * fontSize) (fontSize * lineHeight)
          (titleMeasure t + fontSize * (3 / 2)) ps p hpmem hpne
        exact ⟨hmain.2.1, hmain.2.2⟩

/-- Witness for C10's amended statement at a concrete input. -/
theorem paginateParagraphs_page_invariants_witness :
    (∀ pg ∈ paginateParagraphs (fun _ => (0 : ℚ)) (fun _ => (0 : ℚ)) ["ab".toList] 100 10 2 1
      50 none, pageOk pg) ∧
    ∃ groups : List (List PageParagraph),
      List.Forall₂ goodGroupStrict groups ["ab".toList] ∧
      ((paginateParagraphs (fun _ => (0 : ℚ)) (fun _ => (0 : ℚ)) ["ab".toList] 100 10 2 1 50
        none).map PageData.paragraphs).flatten = groups.flatten :=
  paginateParagraphs_page_invariants.2 (fun _ => 0) (fun _ => 0) ["ab".toList] 100 10 2 1 50
    none (by norm_num) (by norm_num) ⟨"ab".toList, by simp, by simp⟩

/-- C3: a single non-empty paragraph that cannot fit (its measured height
exceeds the page budget) and cannot be split (the budget is below one line
height) is force-placed: the engine terminates and returns exactly one page
containing the whole paragraph unsplit, as a non-continuation fragment.
Termination for every input is established by the well-founded definition
of `placeLoop` itself (each iteration consumes a non-empty prefix or
force-places and stops). -/
theorem paginate_oversize_single_page :
    ∀ (measure titleMeasure : List Char → ℚ) (p : List Char)
      (availableHeight fontSize lineHeight paragraphSpacing containerWidth : ℚ),
      p ≠ [] → 0 < availableHeight → 0 < containerWidth →
      ¬ measure p ≤ availableHeight - 8 →
      ¬ fontSize * lineHeight ≤ availableHeight - 8 →
      paginateParagraphs measure titleMeasure [p] availableHeight fontSize lineHeight
        paragraphSpacing containerWidth none = [⟨[⟨p, p, false⟩], true⟩] := by
  intro measure titleMeasure p availableHeight fontSize lineHeight paragraphSpacing
    containerWidth hp hh hw hmeas hline
  unfold paginateParagraphs
  rw [if_neg (by
    push_neg
    exact ⟨by simp, hh, hw⟩)]
  dsimp only
  rw [List.foldl_cons, List.foldl_nil]
  unfold placePara
  rw [placeLoop.eq_def, dif_neg (by simpa using hp)]
  dsimp only
  have hmeas2 : ¬ (measure p + (if 0 < ([] : List PageParagraph).length then
      paragraphSpacing * fontSize else 0)) ≤ availableHeight - 8 - 0 := by
    simpa using hmeas
  rw [if_neg hmeas2]
  have hnosplit2 : ¬ ((fontSize * lineHeight ≤ availableHeight - 8 - 0 -
      (if 0 < ([] : List PageParagraph).length then paragraphSpacing * fontSize else 0)) ∧
      0 < findSplitPoint measure p (availableHeight - 8 - 0 -
      (if 0 < ([] : List PageParagraph).length then paragraphSpacing * fontSize else 0))) := by
    intro hc
    exact hline (by simpa using hc.1)
  rw [dif_neg hnosplit2]
  rw [dif_neg (by simp : ¬ 0 < ([] : List PageParagraph).length)]
  rfl

/-- Witness for C3 at a concrete input. -/
theorem paginate_oversize_single_page_witness :
    paginateParagraphs (fun _ => (1000 : ℚ)) (fun _ => (0 : ℚ)) ["hello".toList] 10 18 2 1 50
      none = [⟨[⟨"hello".toList, "hello".toList, false⟩], true⟩] :=
  paginate_oversize_single_page (fun _ => 1000) (fun _ => 0) "hello".toList 10 18 2 1 50
    (by decide) (by norm_num) (by norm_num) (by norm_num) (by norm_num)

/-- C2: the pagination engine is deterministic — identical paragraphs,
title, layout parameters and (extensionally equal) measurement oracles
yield identical page lists, fragment for fragment. -/
theorem paginateParagraphs_deterministic :
    ∀ (m1 m2 t1 t2 : List Char → ℚ) (ps : List (List Char))
      (availableHeight fontSize lineHeight paragraphSpacing containerWidth : ℚ)
      (title : Option (List Char)),
      (∀ s, m1 s = m2 s) → (∀ s, t1 s = t2 s) →
      paginateParagraphs m1 t1 ps availableHeight fontSize lineHeight paragraphSpacing
        containerWidth title =
      paginateParagraphs m2 t2 ps availableHeight fontSize lineHeight paragraphSpacing
        containerWidth title := by
  intro m1 m2 t1 t2 ps availableHeight fontSize lineHeight paragraphSpacing containerWidth
    title hm ht
  rw [funext hm, funext ht]

/-- Witness for C2 at concrete inputs with syntactically different but
extensionally equal oracles. -/
theorem paginateParagraphs_deterministic_witness :
    paginateParagraphs (fun _ => (0 : ℚ)) (fun _ => (0 : ℚ)) [['a']] 100 10 2 1 50 none =
      paginateParagraphs (fun _ => (0 : ℚ) * 1) (fun _ => (0 : ℚ) + 0) [['a']] 100 10 2 1
        50 none :=
  paginateParagraphs_deterministic _ _ _ _ [['a']] 100 10 2 1 50 none
    (fun _ => by norm_num) (fun _ => by norm_num)

/-- Witness for C6 at a concrete reachable state. -/
theorem loadedWindow_spec_witness :
    (handleScrollBottom 10 ⟨0, 0⟩).start ≤ (handleScrollBottom 10 ⟨0, 0⟩).endIdx ∧
    (handleScrollBottom 10 ⟨0, 0⟩).endIdx ≤ 10 - 1 :=
  loadedWindow_spec.1 10 (handleScrollBottom 10 ⟨0, 0⟩)
    (ReachableWindow.bottom ReachableWindow.init)

end GoldenLines
